import Mathlib

/-!
Verification of the listing deduplication and notification pipeline of the
business-listing scraper (`scraper.py`).

The Python source is shallowly embedded:

* `matches_keywords` (scraper.py lines 140-142): Python's `kw in title.lower()`
  substring test becomes `strContains` over lists of characters, with
  lowercasing modelled by mapping `Char.toLower` over the title's characters.
* The seen-listings store (a JSON object mapping source keys to arrays of id
  strings) becomes an association list `SeenStore`; Python dict lookup
  `seen.get(k, [])` becomes `getStore`, dict assignment `seen[k] = v`
  becomes `setStore` (replace in place, append if new).
* The per-source dedup loop of `main` (lines 751-763) becomes `processSite`;
  the loop over scrapers including the `try/except` that skips a failing
  source (lines 747-766) becomes `runPipeline`, with a failing adapter
  modelled as a fetch returning `none`.
* Persistence (`load_seen` lines 146-152, `save_seen` lines 155-157) is
  modelled at the JSON-value level (`Json`); the file itself is a
  `FileContent` and `save_seen`'s `open(..., "w")` followed by `json.dump`
  is the two-step operation list `saveSeenOps` (truncate, then write), so
  crash-points between the steps are expressible.
* Each adapter's local `seen_ids` dedup loop (lines 302-309, 403-410 and
  465-472, 617-624 and 640-647) becomes `emitCands`; the adapters' candidate
  records (id, title, url extracted from the fetched markup) are taken as
  input, since the HTML/JSON parsing itself is an external collaborator.
-/

/-! ## Keyword matcher (scraper.py lines 140-142) -/

/-- Lowercase a string character-by-character, modelling Python's
`title.lower()` as used by `matches_keywords`. -/
def lowerChars (s : String) : List Char :=
  s.data.map Char.toLower

/-- `strContains hay needle` models Python's substring test `needle in hay`:
true iff `needle` occurs contiguously inside `hay`. -/
def strContains (hay needle : List Char) : Bool :=
  match hay with
  | [] => needle.isEmpty
  | _ :: t => needle.isPrefixOf hay || strContains t needle

/-- scraper.py lines 140-142: `matches_keywords(title)` returns whether any
keyword occurs as a substring of the lowercased title.  The global `KEYWORDS`
list is passed explicitly. -/
def matches_keywords (kws : List String) (title : String) : Bool :=
  kws.any (fun kw => strContains (lowerChars title) kw.data)

/-! ## Data model -/

/-- One listing record as produced by the source adapters
(`{"id": ..., "title": ..., "url": ..., "source": ...}`). -/
structure Listing where
  id : String
  title : String
  url : String
  source : String
deriving DecidableEq, Repr

/-- The seen-listings store: the JSON object `{source_key: [id, ...], ...}`
as an association list (Python dict with string keys). -/
def SeenStore := List (String × List String)
deriving DecidableEq

/-- `seen.get(site_key, [])` (scraper.py line 751). -/
def getStore (store : SeenStore) (k : String) : List String :=
  (List.lookup k store).getD []

/-- `seen[site_key] = v` (scraper.py line 762): replace the binding in place
if the key is present, append it otherwise (Python dict assignment). -/
def setStore : SeenStore → String → List String → SeenStore
  | [], k, v => [(k, v)]
  | (k0, v0) :: rest, k, v =>
      if k0 = k then (k, v) :: rest else (k0, v0) :: setStore rest k v

/-! ## Per-source dedup loop (scraper.py lines 753-759) -/

/-- The inner loop of `main` over one site's fetched batch: skip listings whose
title matches no keyword, skip listings whose id is already in
`site_seen_set`, otherwise append to `new_for_site` and add the id to the
set.  The Python set is modelled as a duplicate-free list; adding an element
appends it. -/
def processSite (kws : List String) (seenSet : List String) :
    List Listing → List Listing × List String
  | [] => ([], seenSet)
  | l :: rest =>
      if matches_keywords kws l.title then
        if l.id ∈ seenSet then
          processSite kws seenSet rest
        else
          let r := processSite kws (seenSet ++ [l.id]) rest
          (l :: r.1, r.2)
      else
        processSite kws seenSet rest

/-- The loop of `main` over the configured scrapers (scraper.py lines
747-766).  `fetch k = none` models the scraper function raising, in which
case the `except` branch leaves the store entry untouched and the run
continues; otherwise the batch is processed against `set(seen.get(k, []))`
(modelled by `List.dedup`) and the store entry is overwritten with the
updated set. -/
def runPipeline (kws : List String) (fetch : String → Option (List Listing)) :
    SeenStore → List String → List Listing × SeenStore
  | store, [] => ([], store)
  | store, k :: rest =>
      match fetch k with
      | none => runPipeline kws fetch store rest
      | some batch =>
          let r := processSite kws (getStore store k).dedup batch
          let tail := runPipeline kws fetch (setStore store k r.2) rest
          (r.1 ++ tail.1, tail.2)

/-! ## Persistence (scraper.py lines 146-157)

`json.load` / `json.dump` themselves are the Python standard library; the
repository's code manipulates the decoded JSON values, so the file is
modelled at the JSON-value level.  A `FileContent` is the state of
`seen_listings.json`: absent, holding text that does not decode
(e.g. truncated or empty), or holding a decodable JSON value. -/

/-- A JSON value, the result of `json.load`. -/
inductive Json where
  | null : Json
  | bool : Bool → Json
  | num : Int → Json
  | str : String → Json
  | arr : List Json → Json
  | obj : List (String × Json) → Json

/-- `isinstance(data, dict)` (scraper.py line 150). -/
def Json.isObj : Json → Bool
  | .obj _ => true
  | _ => false

/-- State of the persisted file `seen_listings.json`. -/
inductive FileContent where
  | absent : FileContent
  | corrupt : FileContent
  | jsonVal : Json → FileContent

/-- scraper.py lines 146-152, `load_seen`: a missing file
(`FileNotFoundError`) or undecodable text (`json.JSONDecodeError`) yields
`{}`, as does decoded JSON that is not an object; otherwise the decoded
object is returned. -/
def load_seen : FileContent → Json
  | .jsonVal (.obj fs) => .obj fs
  | .jsonVal _ => .obj []
  | .absent => .obj []
  | .corrupt => .obj []

/-- Serialize a store as the JSON object `json.dump` writes
(scraper.py line 157). -/
def encodeSeen (store : SeenStore) : Json :=
  .obj (store.map (fun kv => (kv.1, .arr (kv.2.map .str))))

/-- Read a JSON value as a string, as iterating a decoded id array does. -/
def asStr : Json → Option String
  | .str s => some s
  | _ => none

/-- Read one decoded store value as the list of id strings that
`set(seen.get(site_key, []))` (scraper.py line 751) iterates. -/
def decodeIds : Json → List String
  | .arr xs => xs.filterMap asStr
  | _ => []

/-- Interpret a decoded JSON object as a `SeenStore`, the way `main` reads
the result of `load_seen` (scraper.py lines 738 and 751). -/
def decodeSeen : Json → SeenStore
  | .obj fs => fs.map (fun kv => (kv.1, decodeIds kv.2))
  | _ => []

/-- One step of `save_seen` (scraper.py lines 155-157): `open(SEEN_FILE, "w")`
truncates the file in place; `json.dump(seen, f, indent=2)` then writes the
serialized store. -/
inductive FileOp where
  | openTruncate : FileOp
  | writeDump : Json → FileOp

/-- Effect of one file operation on the persisted file. -/
def applyOp : FileContent → FileOp → FileContent
  | _, .openTruncate => .corrupt
  | _, .writeDump j => .jsonVal j

/-- Effect of a sequence of file operations. -/
def applyOps (c : FileContent) (ops : List FileOp) : FileContent :=
  ops.foldl applyOp c

/-- `save_seen(seen)` (scraper.py lines 155-157) as its sequence of file
operations: truncate, then write the full serialized store. -/
def saveSeenOps (store : SeenStore) : List FileOp :=
  [.openTruncate, .writeDump (encodeSeen store)]

/-- Result of one run of `main` (scraper.py lines 736-780): the aggregated
new listings (`all_new`), the final in-memory store, and the persisted file
after the single `save_seen` call at line 768. -/
structure MainResult where
  allNew : List Listing
  finalStore : SeenStore
  fileAfter : FileContent

/-- One run of `main`: load the store from the file (line 738), run the
per-scraper loop (lines 747-766), then persist the updated store once
(line 768). -/
def mainModel (kws : List String) (fetch : String → Option (List Listing))
    (fileBefore : FileContent) (siteKeys : List String) : MainResult :=
  let seen := decodeSeen (load_seen fileBefore)
  let r := runPipeline kws fetch seen siteKeys
  ⟨r.1, r.2, applyOps fileBefore (saveSeenOps r.2)⟩

/-! ## Adapter-local dedup (scraper.py lines 302-309, 403-410, 465-472,
617-624, 640-647)

Each adapter extracts candidate records (listing id, title, url) from the
fetched markup and appends them to its result guarded by a local `seen_ids`
set.  The extraction is the external scraping collaborator; the candidates
are taken as input. -/

/-- One candidate record extracted by an adapter before dedup. -/
structure Cand where
  id : String
  title : String
  url : String
deriving DecidableEq, Repr

/-- The guarded-append loop shared by all adapters
(e.g. scraper.py lines 302-309): for each candidate, if its id is not in
`seen_ids`, add the id and append the listing tagged with `src`. -/
def emitCands (src : String) (seenIds : List String) (out : List Listing) :
    List Cand → List String × List Listing
  | [] => (seenIds, out)
  | c :: rest =>
      if c.id ∈ seenIds then
        emitCands src seenIds out rest
      else
        emitCands src (c.id :: seenIds) (out ++ [⟨c.id, c.title, c.url, src⟩]) rest

/-- The county loop of `scrape_bizmls` (scraper.py lines 196-311): one
candidate list per county, processed in order against a single `seen_ids`
set shared across counties; listings are tagged
`"BizMLS (" + county_label + ")"` at append time (line 308). -/
def scrapeBizmlsGo (seenIds : List String) (out : List Listing) :
    List (String × List Cand) → List Listing
  | [] => out
  | (county, cands) :: rest =>
      let acc := emitCands ("BizMLS (" ++ county ++ ")") seenIds out cands
      scrapeBizmlsGo acc.1 acc.2 rest

/-- `scrape_bizmls` (scraper.py lines 169-319), dedup skeleton: the input is
the per-county candidate lists parsed from the rendered pages. -/
def scrape_bizmls (counties : List (String × List Cand)) : List Listing :=
  scrapeBizmlsGo [] [] counties

/-- Loop over candidate batches that returns as soon as the accumulated
listing list is non-empty after a batch (`if listings: return listings`,
scraper.py lines 411-413 and 625-626), sharing one `seen_ids` set. -/
def emitBatchesUntilNonempty (src : String) (seenIds : List String)
    (out : List Listing) : List (List Cand) → List String × List Listing
  | [] => (seenIds, out)
  | b :: rest =>
      let acc := emitCands src seenIds out b
      if acc.2.isEmpty then emitBatchesUntilNonempty src acc.1 acc.2 rest
      else acc

/-- `scrape_bizbuysell` (scraper.py lines 344-479), dedup skeleton: the API
attempts (lines 363-417, early return at 411-413 when listings were found)
followed by the Playwright fallback scan (lines 455-472), all sharing one
`seen_ids` set. -/
def scrape_bizbuysell (apiBatches : List (List Cand)) (pwCands : List Cand) :
    List Listing :=
  let acc := emitBatchesUntilNonempty "BizBuySell" [] [] apiBatches
  if acc.2.isEmpty then (emitCands "BizBuySell" acc.1 acc.2 pwCands).2
  else acc.2

/-- `_parse_bizforsale_html` (scraper.py lines 584-649): the selector loop
(lines 602-626, early return at 625-626 when a selector produced listings)
followed by the broad fallback link scan (lines 630-647), all sharing one
`seen_ids` set. -/
def parseBizforsaleHtml (selBatches : List (List Cand)) (fallback : List Cand) :
    List Listing :=
  let acc := emitBatchesUntilNonempty "BusinessesForSale.com" [] [] selBatches
  if acc.2.isEmpty then (emitCands "BusinessesForSale.com" acc.1 acc.2 fallback).2
  else acc.2

/-! ## Derived notions used by the statements -/

/-- The label of the first county (in processing order) whose candidate list
contains a candidate with the given id. -/
def firstCounty (counties : List (String × List Cand)) (i : String) :
    Option String :=
  (counties.find? (fun p => p.2.any (fun c => c.id == i))).map (fun p => p.1)

/-- The atomicity property claimed for `save_seen`: at every crash point
during a save (every prefix of its file operations), reloading the file
yields either the previously persisted store or the store being saved. -/
def saveAtomicClaim : Prop :=
  ∀ (store : SeenStore) (old : FileContent) (n : Nat),
    decodeSeen (load_seen (applyOps old ((saveSeenOps store).take n))) =
      decodeSeen (load_seen old) ∨
    decodeSeen (load_seen (applyOps old ((saveSeenOps store).take n))) = store

/-- Prior store of the spec's worked example: `{"siteA": ["1","2"]}`. -/
def exampleStore : SeenStore := [("siteA", ["1", "2"])]

/-- Fetched batch of the spec's worked example for `siteA`. -/
def exampleBatch : List Listing :=
  [⟨"2", "Laundromat", "u2", "siteA"⟩,
   ⟨"3", "Coin Laundromat", "u3", "siteA"⟩,
   ⟨"4", "Bakery", "u4", "siteA"⟩]

/-- Fetch function of the spec's worked example: `siteA` returns the batch,
any other source fails. -/
def exampleFetch : String → Option (List Listing) :=
  fun k => if k = "siteA" then some exampleBatch else none

/-! ## Helper lemmas -/

theorem isPrefixOf_iff_prefixRel {l1 l2 : List Char} :
    l1.isPrefixOf l2 = true ↔ l1 <+: l2 := by
  induction l1 generalizing l2 with
  | nil => simp [List.isPrefixOf, List.nil_prefix]
  | cons a t ih =>
      cases l2 with
      | nil => simp [List.isPrefixOf]
      | cons b t2 => simp [List.isPrefixOf, List.cons_prefix_cons, ih, And.comm]

theorem strContains_iff {hay needle : List Char} :
    strContains hay needle = true ↔ needle <:+: hay := by
  induction hay with
  | nil => simp [strContains, List.isEmpty_iff, List.infix_nil]
  | cons c t ih =>
      simp [strContains, List.infix_cons_iff, ih, isPrefixOf_iff_prefixRel,
        Bool.or_eq_true]

theorem getStore_setStore_self (store : SeenStore) (k : String) (v : List String) :
    getStore (setStore store k v) k = v := by
  induction store with
  | nil => simp [setStore, getStore, List.lookup_cons]
  | cons p rest ih =>
      obtain ⟨k0, v0⟩ := p
      by_cases h : k0 = k
      · simp [setStore, h, getStore, List.lookup_cons]
      · simp only [setStore, if_neg h, getStore, List.lookup_cons]
        have hne : (k == k0) = false := by
          simp [beq_eq_false_iff_ne]
          exact fun hk => h hk.symm
        simpa [hne] using ih

theorem getStore_setStore_ne (store : SeenStore) (k k2 : String) (v : List String)
    (h : k2 ≠ k) : getStore (setStore store k v) k2 = getStore store k2 := by
  induction store with
  | nil =>
      simp [setStore, getStore, List.lookup_cons, beq_eq_false_iff_ne.mpr h]
  | cons p rest ih =>
      obtain ⟨k0, v0⟩ := p
      by_cases h0 : k0 = k
      · subst h0
        simp [setStore, getStore, List.lookup_cons, beq_eq_false_iff_ne.mpr h]
      · simp only [setStore, if_neg h0, getStore, List.lookup_cons]
        cases hbe : (k2 == k0) with
        | true => simp
        | false => simpa [getStore] using ih

theorem processSite_all_seen (kws : List String) (seenSet : List String)
    (batch : List Listing) (h : ∀ l ∈ batch, l.id ∈ seenSet) :
    processSite kws seenSet batch = ([], seenSet) := by
  induction batch with
  | nil => rfl
  | cons l rest ih =>
      have hid : l.id ∈ seenSet := h l (by simp)
      have hrest : ∀ x ∈ rest, x.id ∈ seenSet := fun x hx => h x (by simp [hx])
      by_cases hm : matches_keywords kws l.title
      · simp [processSite, hm, hid, ih hrest]
      · simp [processSite, hm, ih hrest]

theorem processSite_seen_subset (kws : List String) (seenSet : List String)
    (batch : List Listing) (i : String) (h : i ∈ seenSet) :
    i ∈ (processSite kws seenSet batch).2 := by
  induction batch generalizing seenSet with
  | nil => simpa [processSite] using h
  | cons l rest ih =>
      by_cases hm : matches_keywords kws l.title
      · by_cases hid : l.id ∈ seenSet
        · simpa [processSite, hm, hid] using ih seenSet h
        · have : i ∈ seenSet ++ [l.id] := by simp [h]
          simpa [processSite, hm, hid] using ih (seenSet ++ [l.id]) this
      · simpa [processSite, hm] using ih seenSet h

theorem processSite_new_not_seen (kws : List String) (seenSet : List String)
    (batch : List Listing) (l : Listing) (h : l ∈ (processSite kws seenSet batch).1) :
    l.id ∉ seenSet := by
  induction batch generalizing seenSet with
  | nil => simp [processSite] at h
  | cons x rest ih =>
      by_cases hm : matches_keywords kws x.title
      · by_cases hid : x.id ∈ seenSet
        · exact ih seenSet (by simpa [processSite, hm, hid] using h)
        · simp only [processSite, hm, hid, if_pos, if_neg, List.mem_cons] at h
          rcases (by simpa using h) with h1 | h2
          · subst h1; exact hid
          · intro hmem
            exact ih (seenSet ++ [x.id]) h2 (by simp [hmem])
      · exact ih seenSet (by simpa [processSite, hm] using h)

theorem processSite_new_mem_final (kws : List String) (seenSet : List String)
    (batch : List Listing) (l : Listing) (h : l ∈ (processSite kws seenSet batch).1) :
    l.id ∈ (processSite kws seenSet batch).2 := by
  induction batch generalizing seenSet with
  | nil => simp [processSite] at h
  | cons x rest ih =>
      by_cases hm : matches_keywords kws x.title
      · by_cases hid : x.id ∈ seenSet
        · have := ih seenSet (by simpa [processSite, hm, hid] using h)
          simpa [processSite, hm, hid] using this
        · rcases (by simpa [processSite, hm, hid] using h :
              l = x ∨ l ∈ (processSite kws (seenSet ++ [x.id]) rest).1) with h1 | h2
          · subst h1
            have : l.id ∈ seenSet ++ [l.id] := by simp
            simpa [processSite, hm, hid] using
              processSite_seen_subset kws (seenSet ++ [l.id]) rest l.id this
          · simpa [processSite, hm, hid] using ih (seenSet ++ [x.id]) h2
      · have := ih seenSet (by simpa [processSite, hm] using h)
        simpa [processSite, hm] using this

theorem processSite_matched_mem_final (kws : List String) (seenSet : List String)
    (batch : List Listing) (l : Listing) (hl : l ∈ batch)
    (hm : matches_keywords kws l.title = true) :
    l.id ∈ (processSite kws seenSet batch).2 := by
  induction batch generalizing seenSet with
  | nil => simp at hl
  | cons x rest ih =>
      rcases List.mem_cons.mp hl with h1 | h2
      · subst h1
        by_cases hid : l.id ∈ seenSet
        · simpa [processSite, hm, hid] using
            processSite_seen_subset kws seenSet rest l.id hid
        · have : l.id ∈ seenSet ++ [l.id] := by simp
          simpa [processSite, hm, hid] using
            processSite_seen_subset kws (seenSet ++ [l.id]) rest l.id this
      · by_cases hmx : matches_keywords kws x.title
        · by_cases hid : x.id ∈ seenSet
          · simpa [processSite, hmx, hid] using ih seenSet h2
          · simpa [processSite, hmx, hid] using ih (seenSet ++ [x.id]) h2
        · simpa [processSite, hmx] using ih seenSet h2

theorem processSite_final_nodup (kws : List String) (seenSet : List String)
    (batch : List Listing) (h : seenSet.Nodup) :
    (processSite kws seenSet batch).2.Nodup := by
  induction batch generalizing seenSet with
  | nil => simpa [processSite] using h
  | cons x rest ih =>
      by_cases hm : matches_keywords kws x.title
      · by_cases hid : x.id ∈ seenSet
        · simpa [processSite, hm, hid] using ih seenSet h
        · have h2 : (seenSet ++ [x.id]).Nodup := by
            simp [List.nodup_append, h, hid]
          simpa [processSite, hm, hid] using ih (seenSet ++ [x.id]) h2
      · simpa [processSite, hm] using ih seenSet h

theorem processSite_new_ids_nodup (kws : List String) (seenSet : List String)
    (batch : List Listing) :
    ((processSite kws seenSet batch).1.map (fun l => l.id)).Nodup := by
  induction batch generalizing seenSet with
  | nil => simp [processSite]
  | cons x rest ih =>
      by_cases hm : matches_keywords kws x.title
      · by_cases hid : x.id ∈ seenSet
        · simpa [processSite, hm, hid] using ih seenSet
        · have hnot : ∀ l ∈ (processSite kws (seenSet ++ [x.id]) rest).1,
              l.id ≠ x.id := by
            intro l hl he
            have := processSite_new_not_seen kws (seenSet ++ [x.id]) rest l hl
            exact this (by simp [he])
          have : (x.id :: (processSite kws (seenSet ++ [x.id]) rest).1.map
              (fun l => l.id)).Nodup := by
            refine List.Nodup.cons ?_ (ih (seenSet ++ [x.id]))
            intro hmem
            rcases List.mem_map.mp hmem with ⟨l, hl, he⟩
            exact hnot l hl he
          simpa [processSite, hm, hid] using this
      · simpa [processSite, hm] using ih seenSet

theorem runPipeline_grow (kws : List String)
    (fetch : String → Option (List Listing)) (store : SeenStore)
    (keys : List String) (k : String) (i : String)
    (h : i ∈ getStore store k) :
    i ∈ getStore (runPipeline kws fetch store keys).2 k := by
  induction keys generalizing store with
  | nil => simpa [runPipeline] using h
  | cons k0 rest ih =>
      cases hf : fetch k0 with
      | none => simpa [runPipeline, hf] using ih store h
      | some batch =>
          have hstep : i ∈ getStore
              (setStore store k0 (processSite kws (getStore store k0).dedup batch).2) k := by
            by_cases hk : k = k0
            · subst hk
              rw [getStore_setStore_self]
              exact processSite_seen_subset kws (getStore store k).dedup batch i
                (List.mem_dedup.mpr h)
            · rw [getStore_setStore_ne store k0 k _ hk]
              exact h
          simpa [runPipeline, hf] using
            ih (setStore store k0 (processSite kws (getStore store k0).dedup batch).2) hstep

theorem decodeIds_encode (ids : List String) :
    decodeIds (.arr (ids.map .str)) = ids := by
  simp only [decodeIds, List.filterMap_map]
  have : (asStr ∘ Json.str) = some := by
    funext s
    rfl
  rw [this, List.filterMap_some]

theorem decodeSeen_encodeSeen (store : SeenStore) :
    decodeSeen (encodeSeen store) = store := by
  simp only [encodeSeen, decodeSeen, List.map_map]
  have : ((fun kv => (kv.1, decodeIds kv.2)) ∘
      fun kv : String × List String => (kv.1, Json.arr (kv.2.map .str))) = id := by
    funext kv
    simp [decodeIds_encode]
  simp [this]

theorem load_seen_encodeSeen (store : SeenStore) :
    load_seen (.jsonVal (encodeSeen store)) = encodeSeen store := by
  simp [encodeSeen, load_seen]

theorem emitCands_seen_grow (src : String) (seenIds : List String)
    (out : List Listing) (cs : List Cand) (i : String) (h : i ∈ seenIds) :
    i ∈ (emitCands src seenIds out cs).1 := by
  induction cs generalizing seenIds out with
  | nil => simpa [emitCands] using h
  | cons c rest ih =>
      by_cases hc : c.id ∈ seenIds
      · simpa [emitCands, hc] using ih seenIds out h
      · simpa [emitCands, hc] using
          ih (c.id :: seenIds) (out ++ [⟨c.id, c.title, c.url, src⟩]) (by simp [h])

theorem emitCands_covers (src : String) (seenIds : List String)
    (out : List Listing) (cs : List Cand) (c : Cand) (h : c ∈ cs) :
    c.id ∈ (emitCands src seenIds out cs).1 := by
  induction cs generalizing seenIds out with
  | nil => simp at h
  | cons c0 rest ih =>
      rcases List.mem_cons.mp h with h1 | h2
      · subst h1
        by_cases hc : c.id ∈ seenIds
        · simpa [emitCands, hc] using emitCands_seen_grow src seenIds out rest c.id hc
        · simpa [emitCands, hc] using
            emitCands_seen_grow src (c.id :: seenIds)
              (out ++ [⟨c.id, c.title, c.url, src⟩]) rest c.id (by simp)
      · by_cases hc : c0.id ∈ seenIds
        · simpa [emitCands, hc] using ih seenIds out h2
        · simpa [emitCands, hc] using
            ih (c0.id :: seenIds) (out ++ [⟨c0.id, c0.title, c0.url, src⟩]) h2

theorem emitCands_out_char (src : String) (seenIds : List String)
    (out : List Listing) (cs : List Cand) (l : Listing)
    (h : l ∈ (emitCands src seenIds out cs).2) :
    l ∈ out ∨ (l.source = src ∧ l.id ∉ seenIds ∧ ∃ c ∈ cs, c.id = l.id) := by
  induction cs generalizing seenIds out with
  | nil => exact Or.inl (by simpa [emitCands] using h)
  | cons c rest ih =>
      by_cases hc : c.id ∈ seenIds
      · rcases ih seenIds out (by simpa [emitCands, hc] using h) with h1 | h2
        · exact Or.inl h1
        · exact Or.inr ⟨h2.1, h2.2.1, by
            obtain ⟨c0, hc0, he⟩ := h2.2.2
            exact ⟨c0, by simp [hc0], he⟩⟩
      · rcases ih (c.id :: seenIds) (out ++ [⟨c.id, c.title, c.url, src⟩])
            (by simpa [emitCands, hc] using h) with h1 | h2
        · rcases List.mem_append.mp h1 with ho | hn
          · exact Or.inl ho
          · refine Or.inr ?_
            have : l = ⟨c.id, c.title, c.url, src⟩ := by simpa using hn
            subst this
            exact ⟨rfl, hc, ⟨c, by simp, rfl⟩⟩
        · refine Or.inr ⟨h2.1, fun hmem => h2.2.1 (by simp [hmem]), ?_⟩
          obtain ⟨c0, hc0, he⟩ := h2.2.2
          exact ⟨c0, by simp [hc0], he⟩

theorem emitCands_inv (src : String) (seenIds : List String)
    (out : List Listing) (cs : List Cand)
    (hnodup : (out.map (fun l => l.id)).Nodup)
    (hsub : ∀ l ∈ out, l.id ∈ seenIds) :
    ((emitCands src seenIds out cs).2.map (fun l => l.id)).Nodup ∧
      ∀ l ∈ (emitCands src seenIds out cs).2,
        l.id ∈ (emitCands src seenIds out cs).1 := by
  induction cs generalizing seenIds out with
  | nil =>
      constructor
      · simpa [emitCands] using hnodup
      · intro l hl
        simp only [emitCands] at hl ⊢
        exact hsub l hl
  | cons c rest ih =>
      by_cases hc : c.id ∈ seenIds
      · simpa [emitCands, hc] using ih seenIds out hnodup hsub
      · have hnodup2 : ((out ++ [(⟨c.id, c.title, c.url, src⟩ : Listing)]).map
            (fun l => l.id)).Nodup := by
          simp only [List.map_append, List.map_cons, List.map_nil]
          rw [List.nodup_append]
          refine ⟨hnodup, List.nodup_singleton _, ?_⟩
          intro i hi hi2
          have : i = c.id := by simpa using hi2
          subst this
          rcases List.mem_map.mp hi with ⟨l, hl, he⟩
          exact hc (he ▸ hsub l hl)
        have hsub2 : ∀ l ∈ out ++ [(⟨c.id, c.title, c.url, src⟩ : Listing)],
            l.id ∈ c.id :: seenIds := by
          intro l hl
          rcases List.mem_append.mp hl with h1 | h2
          · exact List.mem_cons_of_mem _ (hsub l h1)
          · have : l = (⟨c.id, c.title, c.url, src⟩ : Listing) := by simpa using h2
            subst this
            simp
        simpa [emitCands, hc] using
          ih (c.id :: seenIds) (out ++ [⟨c.id, c.title, c.url, src⟩]) hnodup2 hsub2

theorem scrapeBizmlsGo_nodup (rest : List (String × List Cand))
    (seenIds : List String) (out : List Listing)
    (hnodup : (out.map (fun l => l.id)).Nodup)
    (hsub : ∀ l ∈ out, l.id ∈ seenIds) :
    ((scrapeBizmlsGo seenIds out rest).map (fun l => l.id)).Nodup := by
  induction rest generalizing seenIds out with
  | nil => simpa [scrapeBizmlsGo] using hnodup
  | cons p rest2 ih =>
      obtain ⟨county, cands⟩ := p
      have hinv := emitCands_inv ("BizMLS (" ++ county ++ ")") seenIds out cands
        hnodup hsub
      simpa [scrapeBizmlsGo] using
        ih (emitCands ("BizMLS (" ++ county ++ ")") seenIds out cands).1
          (emitCands ("BizMLS (" ++ county ++ ")") seenIds out cands).2
          hinv.1 hinv.2

theorem scrapeBizmlsGo_tag (done rest : List (String × List Cand))
    (seenIds : List String) (out : List Listing)
    (hseen : ∀ p ∈ done, ∀ c ∈ p.2, c.id ∈ seenIds)
    (hout : ∀ l ∈ out, ∃ cty, firstCounty (done ++ rest) l.id = some cty ∧
      l.source = "BizMLS (" ++ cty ++ ")") :
    ∀ l ∈ scrapeBizmlsGo seenIds out rest,
      ∃ cty, firstCounty (done ++ rest) l.id = some cty ∧
        l.source = "BizMLS (" ++ cty ++ ")" := by
  induction rest generalizing done seenIds out with
  | nil =>
      intro l hl
      exact hout l (by simpa [scrapeBizmlsGo] using hl)
  | cons p rest2 ih =>
      obtain ⟨county, cands⟩ := p
      intro l hl
      have happ : done ++ (county, cands) :: rest2 =
          (done ++ [(county, cands)]) ++ rest2 := by simp
      have hseen2 : ∀ p ∈ done ++ [(county, cands)], ∀ c ∈ p.2,
          c.id ∈ (emitCands ("BizMLS (" ++ county ++ ")") seenIds out cands).1 := by
        intro p hp c hc
        rcases List.mem_append.mp hp with h1 | h2
        · exact emitCands_seen_grow _ seenIds out cands c.id (hseen p h1 c hc)
        · have : p = (county, cands) := by simpa using h2
          subst this
          exact emitCands_covers _ seenIds out cands c hc
      have hout2 : ∀ l0 ∈ (emitCands ("BizMLS (" ++ county ++ ")") seenIds out cands).2,
          ∃ cty, firstCounty ((done ++ [(county, cands)]) ++ rest2) l0.id = some cty ∧
            l0.source = "BizMLS (" ++ cty ++ ")" := by
        intro l0 hl0
        rcases emitCands_out_char _ seenIds out cands l0 hl0 with h1 | h2
        · rw [← happ]
          exact hout l0 h1
        · refine ⟨county, ?_, h2.1⟩
          have hdone : List.find? (fun p => p.2.any (fun c => c.id == l0.id)) done
              = none := by
            rw [List.find?_eq_none]
            intro p hp
            simp only [Bool.not_eq_true, List.any_eq_false]
            intro c hc
            simp only [beq_eq_false_iff_ne, ne_eq]
            intro he
            exact h2.2.1 (he ▸ hseen p hp c hc)
          have hhere : (fun p : String × List Cand =>
              p.2.any (fun c => c.id == l0.id)) (county, cands) = true := by
            simp only [List.any_eq_true]
            obtain ⟨c, hc, he⟩ := h2.2.2
            exact ⟨c, hc, by simp [he]⟩
          simp [firstCounty, List.find?_append, hdone, List.find?_cons, hhere]
      have := ih (done ++ [(county, cands)])
        (emitCands ("BizMLS (" ++ county ++ ")") seenIds out cands).1
        (emitCands ("BizMLS (" ++ county ++ ")") seenIds out cands).2
        hseen2 hout2 l (by simpa [scrapeBizmlsGo] using hl)
      rw [happ]
      exact this

theorem emitBatchesUntilNonempty_nodup (src : String)
    (batches : List (List Cand)) (seenIds : List String) (out : List Listing)
    (hnodup : (out.map (fun l => l.id)).Nodup)
    (hsub : ∀ l ∈ out, l.id ∈ seenIds) :
    (((emitBatchesUntilNonempty src seenIds out batches).2.map
        (fun l => l.id)).Nodup) ∧
      ∀ l ∈ (emitBatchesUntilNonempty src seenIds out batches).2,
        l.id ∈ (emitBatchesUntilNonempty src seenIds out batches).1 := by
  induction batches generalizing seenIds out with
  | nil =>
      refine ⟨by simpa [emitBatchesUntilNonempty] using hnodup, ?_⟩
      intro l hl
      simp only [emitBatchesUntilNonempty] at hl ⊢
      exact hsub l hl
  | cons b rest ih =>
      have hinv := emitCands_inv src seenIds out b hnodup hsub
      by_cases he : (emitCands src seenIds out b).2.isEmpty
      · simpa [emitBatchesUntilNonempty, he] using
          ih (emitCands src seenIds out b).1 (emitCands src seenIds out b).2
            hinv.1 hinv.2
      · simpa [emitBatchesUntilNonempty, he] using hinv

/-! ## Claims -/

/-- Claim C1 (counterexample): the claim that `save_seen` is atomic from the
caller's perspective is false: crashing after `open(SEEN_FILE, "w")` has
truncated the file but before `json.dump` has written leaves a state from
which loading yields neither the previously persisted store nor the store
being saved. -/
theorem save_seen_not_atomic : ¬ saveAtomicClaim := by
  intro h
  have := h [("b", ["9"])] (.jsonVal (encodeSeen [("a", ["1"])])) 1
  exact absurd this (by decide)

/-- Claim C1 (amended): `save_seen` overwrites the persisted copy with the
full serialized store, but it is not atomic: opening with mode `"w"`
truncates in place before `json.dump` writes, so the crash point between the
two steps loses the previously persisted state (a subsequent load returns
the empty store). -/
theorem save_seen_overwrites_but_truncates (store : SeenStore) (old : FileContent) :
    applyOps old (saveSeenOps store) = .jsonVal (encodeSeen store) ∧
    applyOps old ((saveSeenOps store).take 1) = .corrupt ∧
    decodeSeen (load_seen (applyOps old ((saveSeenOps store).take 1))) = [] :=
  ⟨rfl, rfl, rfl⟩

/-- Claim C2: with prior store `{"siteA": ["1","2"]}`, keywords
`["laundromat"]` and the fetched batch
`[{id:"2", title:"Laundromat"}, {id:"3", title:"Coin Laundromat"},
{id:"4", title:"Bakery"}]` for `siteA`, one pipeline run returns exactly the
listing with id `"3"` as new, and the resulting store entry for `siteA` is
the set `{"1","2","3"}`. -/
theorem pipeline_worked_example :
    (runPipeline ["laundromat"] exampleFetch exampleStore ["siteA"]).1 =
      [⟨"3", "Coin Laundromat", "u3", "siteA"⟩] ∧
    (getStore (runPipeline ["laundromat"] exampleFetch exampleStore
        ["siteA"]).2 "siteA").toFinset = {"1", "2", "3"} := by
  constructor
  · decide
  · decide

/-- Claim C3: for every source key and every batch whose listing ids are all
already in the store's seen-set for that key, running the pipeline again over
the same batch yields zero new listings (idempotence with respect to an
already-seen batch). -/
theorem rerun_already_seen_batch_idempotent (kws : List String)
    (store : SeenStore) (fetch : String → Option (List Listing)) (key : String)
    (batch : List Listing) (hf : fetch key = some batch)
    (hseen : ∀ l ∈ batch, l.id ∈ getStore store key) :
    (runPipeline kws fetch store [key]).1 = [] := by
  have hs : ∀ l ∈ batch, l.id ∈ (getStore store key).dedup := fun l hl =>
    List.mem_dedup.mpr (hseen l hl)
  simp [runPipeline, hf, processSite_all_seen kws _ batch hs]

/-- Witness for claim C3 at a concrete input: every id of the example batch
is already stored, so the run reports nothing. -/
theorem rerun_already_seen_batch_idempotent_witness :
    (runPipeline ["laundromat"] exampleFetch [("siteA", ["2", "3", "4"])]
      ["siteA"]).1 = [] :=
  rerun_already_seen_batch_idempotent ["laundromat"]
    [("siteA", ["2", "3", "4"])] exampleFetch "siteA" exampleBatch
    (by decide) (by decide)

/-- Claim C4: for every batch, the per-source loop reports each listing id at
most once (so a duplicate id within one fetch is reported once), the
resulting seen-set has no duplicates, and every keyword-matching listing of
the batch ends up in the seen-set exactly once — ids are marked seen the
moment the listing is appended, before the rest of the batch is
processed. -/
theorem duplicate_in_batch_reported_once (kws : List String)
    (stored : List String) (batch : List Listing) :
    (processSite kws stored.dedup batch).2.Nodup ∧
    (∀ i, ((processSite kws stored.dedup batch).1.map
      (fun l => l.id)).count i ≤ 1) ∧
    (∀ l ∈ batch, matches_keywords kws l.title = true →
      (processSite kws stored.dedup batch).2.count l.id = 1) := by
  have hnodup := processSite_final_nodup kws stored.dedup batch
    (List.nodup_dedup stored)
  refine ⟨hnodup, ?_, ?_⟩
  · intro i
    exact List.nodup_iff_count_le_one.mp
      (processSite_new_ids_nodup kws stored.dedup batch) i
  · intro l hl hm
    exact List.count_eq_one_of_mem hnodup
      (processSite_matched_mem_final kws stored.dedup batch l hl hm)

/-- Witness for claim C4 at a concrete input: a batch carrying id `"7"` twice
with matching titles marks `"7"` seen exactly once. -/
theorem duplicate_in_batch_reported_once_witness :
    (processSite ["laundromat"] ([] : List String).dedup
      [⟨"7", "Laundromat", "u", "s"⟩, ⟨"7", "Laundromat Deluxe", "u2", "s"⟩]).2.count
        "7" = 1 :=
  (duplicate_in_batch_reported_once ["laundromat"] []
      [⟨"7", "Laundromat", "u", "s"⟩, ⟨"7", "Laundromat Deluxe", "u2", "s"⟩]).2.2
    ⟨"7", "Laundromat", "u", "s"⟩ (by decide) (by decide)

/-- Claim C5: for every title and every sequence of non-empty, trimmed,
already-lowercased keywords, `matches_keywords` returns true iff the
lowercased title contains at least one keyword as a contiguous substring,
and for the empty keyword sequence it returns false for every title. -/
theorem matches_keywords_substring_semantics (kws : List String)
    (title : String)
    (hkw : ∀ kw ∈ kws, kw ≠ "" ∧ kw.data.map Char.toLower = kw.data) :
    (matches_keywords kws title = true ↔
      ∃ kw ∈ kws, kw.data <:+: lowerChars title) ∧
    (kws = [] → matches_keywords kws title = false) := by
  constructor
  · simp only [matches_keywords, List.any_eq_true]
    constructor
    · rintro ⟨kw, hmem, hc⟩
      exact ⟨kw, hmem, strContains_iff.mp hc⟩
    · rintro ⟨kw, hmem, hc⟩
      exact ⟨kw, hmem, strContains_iff.mpr hc⟩
  · intro h
    subst h
    rfl

/-- Witness for claim C5 at a concrete input: keyword `"coin"` matches the
title `"Coin Laundromat For Sale"`. -/
theorem matches_keywords_substring_semantics_witness :
    (matches_keywords ["coin"] "Coin Laundromat For Sale" = true ↔
      ∃ kw ∈ ["coin"], kw.data <:+: lowerChars "Coin Laundromat For Sale") ∧
    ((["coin"] : List String) = [] →
      matches_keywords ["coin"] "Coin Laundromat For Sale" = false) :=
  matches_keywords_substring_semantics ["coin"] "Coin Laundromat For Sale"
    (by decide)

/-- Claim C6: if fetching one source fails and another succeeds, the run does
not abort: the aggregate is exactly the successful source's new
keyword-matching listings, the failed source's store entry is unchanged, the
successful source's entry is updated, and the file persisted by the single
end-of-run `save_seen` holds the full serialized updated store. -/
theorem partial_failure_does_not_abort (kws : List String) (store : SeenStore)
    (fetch : String → Option (List Listing)) (k1 k2 : String)
    (batch : List Listing) (hne : k1 ≠ k2)
    (h1 : fetch k1 = none) (h2 : fetch k2 = some batch) :
    (mainModel kws fetch (.jsonVal (encodeSeen store)) [k1, k2]).allNew =
      (processSite kws (getStore store k2).dedup batch).1 ∧
    getStore (mainModel kws fetch (.jsonVal (encodeSeen store))
        [k1, k2]).finalStore k1 = getStore store k1 ∧
    getStore (mainModel kws fetch (.jsonVal (encodeSeen store))
        [k1, k2]).finalStore k2 =
      (processSite kws (getStore store k2).dedup batch).2 ∧
    (mainModel kws fetch (.jsonVal (encodeSeen store)) [k1, k2]).fileAfter =
      .jsonVal (encodeSeen (mainModel kws fetch (.jsonVal (encodeSeen store))
        [k1, k2]).finalStore) := by
  have hload : decodeSeen (load_seen (.jsonVal (encodeSeen store))) = store := by
    rw [load_seen_encodeSeen, decodeSeen_encodeSeen]
  have hrun : runPipeline kws fetch store [k1, k2] =
      ((processSite kws (getStore store k2).dedup batch).1,
        setStore store k2 (processSite kws (getStore store k2).dedup batch).2) := by
    simp [runPipeline, h1, h2]
  refine ⟨?_, ?_, ?_, ?_⟩
  · simp [mainModel, hload, hrun]
  · simp only [mainModel, hload, hrun]
    exact getStore_setStore_ne store k2 k1 _ hne
  · simp only [mainModel, hload, hrun]
    exact getStore_setStore_self store k2 _
  · simp only [mainModel, hload, hrun]
    rfl

/-- Witness for claim C6 at a concrete input: `siteB` fails, `siteA` succeeds
with the example batch. -/
theorem partial_failure_does_not_abort_witness :
    (mainModel ["laundromat"] exampleFetch
        (.jsonVal (encodeSeen exampleStore)) ["siteB", "siteA"]).allNew =
      (processSite ["laundromat"] (getStore exampleStore "siteA").dedup
        exampleBatch).1 ∧
    getStore (mainModel ["laundromat"] exampleFetch
        (.jsonVal (encodeSeen exampleStore)) ["siteB", "siteA"]).finalStore
      "siteB" = getStore exampleStore "siteB" ∧
    getStore (mainModel ["laundromat"] exampleFetch
        (.jsonVal (encodeSeen exampleStore)) ["siteB", "siteA"]).finalStore
      "siteA" =
      (processSite ["laundromat"] (getStore exampleStore "siteA").dedup
        exampleBatch).2 ∧
    (mainModel ["laundromat"] exampleFetch
        (.jsonVal (encodeSeen exampleStore)) ["siteB", "siteA"]).fileAfter =
      .jsonVal (encodeSeen (mainModel ["laundromat"] exampleFetch
        (.jsonVal (encodeSeen exampleStore)) ["siteB", "siteA"]).finalStore) :=
  partial_failure_does_not_abort ["laundromat"] exampleStore exampleFetch
    "siteB" "siteA" exampleBatch (by decide) (by decide) (by decide)

/-- Claim C7: saving any seen-store and loading it back reproduces the same
mapping (round-trip law), whatever the prior file contents were. -/
theorem save_load_round_trip (store : SeenStore) (old : FileContent) :
    decodeSeen (load_seen (applyOps old (saveSeenOps store))) = store := by
  have h1 : applyOps old (saveSeenOps store) = .jsonVal (encodeSeen store) := rfl
  rw [h1, load_seen_encodeSeen, decodeSeen_encodeSeen]

/-- Claim C8: a pipeline run only grows the store: every id present for a
source key before the run is still present after it, so an id once added is
never removed. -/
theorem store_only_grows (kws : List String)
    (fetch : String → Option (List Listing)) (store : SeenStore)
    (keys : List String) (k : String) (i : String)
    (h : i ∈ getStore store k) :
    i ∈ getStore (runPipeline kws fetch store keys).2 k :=
  runPipeline_grow kws fetch store keys k i h

/-- Witness for claim C8 at a concrete input: id `"1"` for `siteA` survives
the example run. -/
theorem store_only_grows_witness :
    "1" ∈ getStore (runPipeline ["laundromat"] exampleFetch exampleStore
      ["siteA"]).2 "siteA" :=
  store_only_grows ["laundromat"] exampleFetch exampleStore ["siteA"]
    "siteA" "1" (by decide)

/-- Claim C9: `load_seen` returns the empty store when the persisted state is
absent, undecodable, or decodes to a non-object, and (being total on these
cases) never raises to the caller. -/
theorem load_seen_recovers_to_empty (j : Json) (hj : j.isObj = false) :
    load_seen .absent = .obj [] ∧ load_seen .corrupt = .obj [] ∧
    load_seen (.jsonVal j) = .obj [] := by
  refine ⟨rfl, rfl, ?_⟩
  cases j <;> simp_all [load_seen, Json.isObj]

/-- Witness for claim C9 at a concrete input: a JSON array is not an object
and loads as the empty store. -/
theorem load_seen_recovers_to_empty_witness :
    load_seen .absent = .obj [] ∧ load_seen .corrupt = .obj [] ∧
    load_seen (.jsonVal (.arr [])) = .obj [] :=
  load_seen_recovers_to_empty (.arr []) rfl

/-- Claim C10: every batch an adapter hands to the pipeline has pairwise
distinct listing ids (each adapter dedups through its local `seen_ids` set),
and a BizMLS candidate appearing under several counties is emitted once,
tagged with the first county under which it was encountered. -/
theorem adapters_emit_distinct_ids :
    (∀ counties : List (String × List Cand),
      ((scrape_bizmls counties).map (fun l => l.id)).Nodup ∧
      ∀ l ∈ scrape_bizmls counties,
        ∃ cty, firstCounty counties l.id = some cty ∧
          l.source = "BizMLS (" ++ cty ++ ")") ∧
    (∀ (apiBatches : List (List Cand)) (pwCands : List Cand),
      ((scrape_bizbuysell apiBatches pwCands).map (fun l => l.id)).Nodup) ∧
    (∀ (selBatches : List (List Cand)) (fallback : List Cand),
      ((parseBizforsaleHtml selBatches fallback).map (fun l => l.id)).Nodup) := by
  refine ⟨?_, ?_, ?_⟩
  · intro counties
    constructor
    · exact scrapeBizmlsGo_nodup counties [] [] (by simp) (by simp)
    · intro l hl
      simpa using scrapeBizmlsGo_tag [] counties [] [] (by simp) (by simp) l hl
  · intro apiBatches pwCands
    have hinv := emitBatchesUntilNonempty_nodup "BizBuySell" apiBatches [] []
      (by simp) (by simp)
    by_cases he : (emitBatchesUntilNonempty "BizBuySell" [] [] apiBatches).2.isEmpty
    · have hinner := emitCands_inv "BizBuySell"
        (emitBatchesUntilNonempty "BizBuySell" [] [] apiBatches).1
        (emitBatchesUntilNonempty "BizBuySell" [] [] apiBatches).2
        pwCands hinv.1 hinv.2
      simpa [scrape_bizbuysell, he] using hinner.1
    · simpa [scrape_bizbuysell, he] using hinv.1
  · intro selBatches fallback
    have hinv := emitBatchesUntilNonempty_nodup "BusinessesForSale.com"
      selBatches [] [] (by simp) (by simp)
    by_cases he : (emitBatchesUntilNonempty "BusinessesForSale.com" [] []
        selBatches).2.isEmpty
    · have hinner := emitCands_inv "BusinessesForSale.com"
        (emitBatchesUntilNonempty "BusinessesForSale.com" [] [] selBatches).1
        (emitBatchesUntilNonempty "BusinessesForSale.com" [] [] selBatches).2
        fallback hinv.1 hinv.2
      simpa [parseBizforsaleHtml, he] using hinner.1
    · simpa [parseBizforsaleHtml, he] using hinv.1

/-- Witness for claim C10 at a concrete input: a county page listing id
`"5"` twice yields a single emission. -/
theorem adapters_emit_distinct_ids_witness :
    ((scrape_bizmls [("Broward", [⟨"5", "T", "u"⟩, ⟨"5", "T2", "u2"⟩])]).map
      (fun l => l.id)).Nodup :=
  (adapters_emit_distinct_ids.1
    [("Broward", [⟨"5", "T", "u"⟩, ⟨"5", "T2", "u2"⟩])]).1
